import Mathlib

/-!
Verification of the slopjson path-addressing-and-search core.

The Rust sources are embedded shallowly:

* `src/value_lookup.rs` — `PathSegment`, `parse_json_path`, `lookup_in_value`,
  `lookup_value`, `lookup_value_in_jsonl`.
* `src/path_formatting.rs` — `format_path_component`, `build_object_path`,
  `build_array_path`.
* `src/document_store.rs` — `JsonLDocument`, `StoredDocument`.
* `src/search.rs` — `find_all_occurrences`, `find_occurrence_to_highlight`.

Modelling conventions:

* Rust strings become `String`/`List Char`; byte-level operations of
  `search.rs` are modelled through the UTF-8 width `utf8Len` of each
  character.  A Rust panic (string slicing at a non-boundary byte index)
  is modelled by the value `none` of an `Option` result.
* Rust `usize` becomes `Nat` together with the explicit bound
  `USIZE_MAX = 2 ^ 64 - 1`; `str::parse::<usize>` fails beyond that bound.
* The Unicode character classes used by `format_path_component`
  (`char::is_alphabetic`, `char::is_alphanumeric`) and the case folding used
  by the case-insensitive search (`str::to_lowercase`) are modelled by their
  ASCII restrictions (`Char.isAlpha`, `Char.isAlphanum`, `Char.toLower`).
  No claim below depends on the extent of those classes beyond the facts
  that alphanumeric characters are distinct from the five syntax characters
  of the path grammar.
* serde_json numbers are modelled as `Int`; no claim inspects numeric
  payloads beyond structural equality on the line count of a JSONL summary.
-/

namespace Slopjson

/-- Path segment vocabulary, from `value_lookup.rs`: `enum PathSegment`. -/
inductive PathSegment where
  | Key (s : String)
  | Index (n : Nat)
deriving DecidableEq, Repr

/-- Characters that continue a dot-identifier run in `parse_json_path`:
the Rust loop pushes every character until it peeks `.` or `[`. -/
def keyChar (c : Char) : Bool :=
  !(c = '.' || c = '[')

/-- Body of the quoted-bracket key loop of `parse_json_path` (the
`while let Some(c) = chars.next()` loop after `["`): a backslash escapes the
next character (failing at end of input), an unescaped quote ends the key,
anything else is taken verbatim.  Returns the key and the characters
following the closing quote; `none` models falling off the end of the
input, after which the mandatory `]` check of the Rust code fails. -/
def parseQuotedBody : List Char → Option (List Char × List Char)
  | [] => none
  | c :: rest =>
    if c = '\\' then
      match rest with
      | [] => none
      | e :: rest2 =>
        match parseQuotedBody rest2 with
        | none => none
        | some (k, r) => some (e :: k, r)
    else if c = '"' then some ([], rest)
    else
      match parseQuotedBody rest with
      | none => none
      | some (k, r) => some (c :: k, r)

/-- Body of the bracket-index loop of `parse_json_path`: collects ASCII
digits until `]` (returning the digit run and the characters after `]`),
failing on any non-digit character and at end of input. -/
def parseIndexBody : List Char → Option (List Char × List Char)
  | [] => none
  | c :: rest =>
    if c = ']' then some ([], rest)
    else if c.isDigit then
      match parseIndexBody rest with
      | none => none
      | some (ds, r) => some (c :: ds, r)
    else none

/-- Decimal value of a digit run, as computed by `str::parse::<usize>`. -/
def digitsToNat (ds : List Char) : Nat :=
  ds.foldl (fun acc c => acc * 10 + (c.toNat - '0'.toNat)) 0

/-- Largest value of the Rust `usize` type (64-bit platforms). -/
def USIZE_MAX : Nat := 2 ^ 64 - 1

/-- Model of `index_str.parse::<usize>().ok()`: fails on the empty string
and on values exceeding `USIZE_MAX`. -/
def parseUsize (ds : List Char) : Option Nat :=
  if ds.isEmpty then none
  else if digitsToNat ds ≤ USIZE_MAX then some (digitsToNat ds)
  else none

/-- Dot component of `parse_json_path`: the characters after `.` up to the
next `.` or `[` form the key; an empty run fails. -/
def parseDot (rest : List Char) : Option (PathSegment × List Char) :=
  let key := rest.takeWhile keyChar
  if key.isEmpty then none
  else some (PathSegment.Key (String.mk key), rest.dropWhile keyChar)

/-- Quoted-bracket component of `parse_json_path`, after the opening `["`:
parse the escaped key, then require the closing `]`. -/
def parseQuoted (rest : List Char) : Option (PathSegment × List Char) :=
  match parseQuotedBody rest with
  | none => none
  | some (key, r) =>
    match r with
    | [] => none
    | c :: r2 => if c = ']' then some (PathSegment.Key (String.mk key), r2) else none

/-- Digit-bracket component of `parse_json_path`, after the opening `[`:
collect the digits up to `]` and convert them with `str::parse::<usize>`. -/
def parseIndex (rest : List Char) : Option (PathSegment × List Char) :=
  match parseIndexBody rest with
  | none => none
  | some (ds, r) =>
    match parseUsize ds with
    | none => none
    | some i => some (PathSegment.Index i, r)

/-- Bracket component of `parse_json_path`: `chars.peek() == Some(&'"')`
selects the quoted form (consuming the quote), anything else the digit
form (consuming nothing). -/
def parseBracket (rest : List Char) : Option (PathSegment × List Char) :=
  match rest with
  | [] => parseIndex []
  | c :: rest2 => if c = '"' then parseQuoted rest2 else parseIndex (c :: rest2)

/-- One component of the main `while let Some(&ch) = chars.peek()` loop of
`parse_json_path`: `.` starts a dot component, `[` a bracket component,
anything else fails the whole parse. -/
def parseComp : List Char → Option (PathSegment × List Char)
  | [] => none
  | c :: rest =>
    if c = '.' then parseDot rest
    else if c = '[' then parseBracket rest
    else none

/-- The component loop of `parse_json_path`, fuelled: each iteration parses
one component and recurses on the remaining characters.  Every successful
component consumes at least one character, so fuel equal to the length of
the input never runs out (the lemmas below carry the invariant
`s.length ≤ fuel` explicitly). -/
def parseSegsF : Nat → List Char → Option (List PathSegment)
  | _, [] => some []
  | 0, _ :: _ => none
  | fuel + 1, c :: rest =>
    match parseComp (c :: rest) with
    | none => none
    | some (seg, r) =>
      match parseSegsF fuel r with
      | none => none
      | some segs => some (seg :: segs)

/-- Model of `parse_json_path` from `value_lookup.rs`: the input must start
with `$`, followed by a sequence of components. -/
def parse_json_path (path : String) : Option (List PathSegment) :=
  match path.data with
  | [] => none
  | c :: rest => if c = '$' then parseSegsF rest.length rest else none

/-- Replacement of every occurrence of a single character by a string, the
semantics of Rust `str::replace` with a `char` pattern. -/
def replaceChar (target : Char) (repl : List Char) : List Char → List Char
  | [] => []
  | c :: rest => (if c = target then repl else [c]) ++ replaceChar target repl rest

/-- The escaping pass of `format_path_component`:
`key.replace('\\', "\\\\").replace('"', "\\\"")` — backslashes first, then
quotes. -/
def escape_key (key : List Char) : List Char :=
  replaceChar '"' ['\\', '"'] (replaceChar '\\' ['\\', '\\'] key)

/-- The identifier test of `format_path_component`: non-empty, first
character alphabetic or underscore, all characters alphanumeric or
underscore (character classes modelled by their ASCII restriction). -/
def is_valid_identifier (key : List Char) : Bool :=
  !key.isEmpty &&
    (match key.head? with
     | some c => c.isAlpha || c = '_'
     | none => false) &&
    key.all (fun c => c.isAlphanum || c = '_')

/-- Model of `format_path_component` from `path_formatting.rs`: `.key` for
valid identifiers, otherwise the bracket-quoted form with `\` and `"`
escaped. -/
def format_path_component (key : String) : String :=
  if is_valid_identifier key.data then String.mk ('.' :: key.data)
  else String.mk ('[' :: '"' :: (escape_key key.data ++ ['"', ']']))

/-- Model of `build_object_path`: append the formatted key component to the
base path. -/
def build_object_path (base key : String) : String :=
  String.mk (base.data ++ (format_path_component key).data)

/-- Decimal rendering of a natural number (the semantics of Rust
`format!` on an unsigned integer), most significant digit first. -/
def natToDecimal (n : Nat) : List Char :=
  if n = 0 then ['0']
  else ((Nat.digits 10 n).map (fun d => Char.ofNat (d + '0'.toNat))).reverse

/-- Model of `build_array_path`: append `[index]` to the base path. -/
def build_array_path (base : String) (index : Nat) : String :=
  String.mk (base.data ++ ('[' :: natToDecimal index ++ [']']))

/-- Document values, from `serde_json::Value` (numbers modelled as `Int`,
objects as ordered association lists — insertion order preserved). -/
inductive Json where
  | null
  | bool (b : Bool)
  | num (n : Int)
  | str (s : String)
  | arr (elems : List Json)
  | obj (fields : List (String × Json))

/-- First field of an ordered object with the given name, the semantics of
`serde_json::Map::get`. -/
def findField : List (String × Json) → String → Option Json
  | [], _ => none
  | (k', v) :: rest, k => if k' = k then some v else findField rest k

/-- Model of `serde_json::Value::get` with a string key: a member lookup on
objects, `None` on every other kind of node. -/
def Json.getKey : Json → String → Option Json
  | .obj fields, k => findField fields k
  | _, _ => none

/-- Model of `serde_json::Value::get` with a `usize` index: an in-bounds
element lookup on arrays, `None` on every other kind of node. -/
def Json.getIdx : Json → Nat → Option Json
  | .arr elems, i => elems.get? i
  | _, _ => none

/-- Model of `lookup_in_value` from `value_lookup.rs`: walk the segments,
failing (via the Rust `?` operator) as soon as one does not resolve. -/
def lookup_in_value (value : Json) : List PathSegment → Option Json
  | [] => some value
  | PathSegment.Key k :: rest =>
    match value.getKey k with
    | none => none
    | some next => lookup_in_value next rest
  | PathSegment.Index i :: rest =>
    match value.getIdx i with
    | none => none
    | some next => lookup_in_value next rest

/-- Model of `lookup_value` from `value_lookup.rs`: parse the path; the
empty segment sequence returns the root itself. -/
def lookup_value (root : Json) (path : String) : Option Json :=
  match parse_json_path path with
  | none => none
  | some segments =>
    if segments.isEmpty then some root
    else lookup_in_value root segments

/-- Model of `lookup_value_in_jsonl` from `value_lookup.rs`: the first
segment must be an in-range `Index` selecting the line; the rest is
resolved by `lookup_in_value`. -/
def lookup_value_in_jsonl (values : List Json) (path : String) : Option Json :=
  match parse_json_path path with
  | none => none
  | some segments =>
    if segments.isEmpty then none
    else
      match segments with
      | [] => none
      | first :: rest =>
        match first with
        | PathSegment.Index i =>
          match values.get? i with
          | none => none
          | some v => lookup_in_value v rest
        | PathSegment.Key _ => none

/-- Model of `JsonLDocument` from `document_store.rs`. -/
structure JsonLDocument where
  values : List Json
  summary : Json

/-- Model of `JsonLDocument::new`: the summary is the single-field object
reporting the line count. -/
def JsonLDocument.new (values : List Json) : JsonLDocument :=
  { values := values
    summary := Json.obj [("lines", Json.num (Int.ofNat values.length))] }

/-- Model of `StoredDocument` from `document_store.rs`. -/
inductive StoredDocument where
  | Single (value : Json)
  | JsonL (doc : JsonLDocument)

/-- Model of `StoredDocument::lookup_value`: single documents delegate to
`lookup_value`; line-delimited documents special-case the literal path `$`
to the summary and otherwise delegate to `lookup_value_in_jsonl`. -/
def StoredDocument.lookup_value : StoredDocument → String → Option Json
  | .Single value, path => Slopjson.lookup_value value path
  | .JsonL doc, path =>
    if path = "$" then some doc.summary
    else lookup_value_in_jsonl doc.values path

/-- UTF-8 byte width of a character (1 to 4 bytes). -/
def utf8Len (c : Char) : Nat :=
  if c.toNat < 0x80 then 1
  else if c.toNat < 0x800 then 2
  else if c.toNat < 0x10000 then 3
  else 4

/-- UTF-8 byte length of a character sequence, the Rust `str::len`. -/
def byteLen (s : List Char) : Nat :=
  (s.map utf8Len).sum

/-- Splitting a string at a byte index, the semantics of Rust
`&text[n..]`: `some (k, suffix)` when byte index `n` is a character
boundary with `k` characters before it, `none` (a Rust panic) when `n`
falls strictly inside the UTF-8 encoding of a character or past the end. -/
def splitAtByte : List Char → Nat → Option (Nat × List Char)
  | s, 0 => some (0, s)
  | [], _ + 1 => none
  | c :: rest, n + 1 =>
    if utf8Len c ≤ n + 1 then
      match splitAtByte rest (n + 1 - utf8Len c) with
      | none => none
      | some (k, suffix) => some (k + 1, suffix)
    else none

/-- Position search behind Rust `str::find` with a `&str` pattern: the
first character position of `s` at which `pattern` occurs as a substring
(the byte offset the Rust call reports is recovered from this position). -/
def charFindAux (pattern : List Char) : List Char → Nat → Option Nat
  | [], i => if pattern.isEmpty then some i else none
  | c :: rest, i =>
    if pattern.isPrefixOf (c :: rest) then some i
    else charFindAux pattern rest (i + 1)

/-- First match position of `pattern` in `s`, in characters. -/
def charFind (s pattern : List Char) : Option Nat :=
  charFindAux pattern s 0

/-- The case-sensitive search loop of `find_all_occurrences`
(`search.rs`): repeatedly slice the text at `start_byte` (a panic — `none`
— when that byte index is not a character boundary), find the next match,
record its character span, and advance `start_byte` to one byte past the
match start.  The fuel only bounds the iteration count; the top-level call
supplies `byteLen text + 1`, which the strictly increasing `start_byte`
can never exhaust. -/
def csLoopF : Nat → List Char → List Char → Nat → Option (List (Nat × Nat))
  | 0, _, _, _ => none
  | fuel + 1, text, pattern, startByte =>
    match splitAtByte text startByte with
    | none => none
    | some (charsBefore, suffix) =>
      match charFind suffix pattern with
      | none => some []
      | some j =>
        let posBytes := byteLen (suffix.take j)
        let charStart := charsBefore + j
        let occ := (charStart, charStart + pattern.length)
        let startByte2 := startByte + posBytes + 1
        if byteLen text ≤ startByte2 then some [occ]
        else
          match csLoopF fuel text pattern startByte2 with
          | none => none
          | some occs => some (occ :: occs)

/-- Model of `c.to_lowercase().next().unwrap_or('\0')` (case folding
modelled by the ASCII simple case map; the iterator of the simple map is
never empty, so the default is never taken). -/
def charLowerFirst (c : Char) : Char :=
  c.toLower

/-- Model of `str::to_lowercase` (ASCII simple case map, see the header). -/
def strLower (s : List Char) : List Char :=
  s.map Char.toLower

/-- The inner comparison loop of the case-insensitive branch of
`find_all_occurrences`: compare the lowered pattern character-by-character
against the lowered text starting at character `i`, guarding every index
before use. -/
def ciMatchFrom (textChars : List Char) (i : Nat) : List Char → Nat → Bool
  | [], _ => true
  | p :: ps, j =>
    match textChars.get? (i + j) with
    | none => false
    | some c => charLowerFirst c == p && ciMatchFrom textChars i ps (j + 1)

/-- The outer loop of the case-insensitive branch of
`find_all_occurrences`: try every starting position `i`, stopping as soon
as a full-length match can no longer fit. -/
def ciLoopF : Nat → List Char → List Char → Nat → List (Nat × Nat)
  | 0, _, _, _ => []
  | fuel + 1, textChars, patLower, i =>
    if textChars.length ≤ i then []
    else if textChars.length < i + patLower.length then []
    else
      (if ciMatchFrom textChars i patLower 0 then [(i, i + patLower.length)] else []) ++
        ciLoopF fuel textChars patLower (i + 1)

/-- Model of `find_all_occurrences` from `search.rs`.  The result is
`none` exactly when the Rust function panics (the case-sensitive branch
slicing the text inside a multi-byte character); otherwise `some` of the
returned span list, in character offsets. -/
def find_all_occurrences (text pattern : String) (case_sensitive : Bool) :
    Option (List (Nat × Nat)) :=
  if pattern.data.isEmpty then some []
  else if pattern.data.length = 0 then some []
  else if case_sensitive then
    csLoopF (byteLen text.data + 1) text.data pattern.data 0
  else
    let patternLower := strLower pattern.data
    if patternLower.isEmpty then some []
    else some (ciLoopF (text.data.length + 1) text.data patternLower 0)

/-- Model of `Iterator::position` on the match list: index of the first
record whose global index equals the requested one. -/
def positionAux : List (Nat × Bool) → Nat → Nat → Option Nat
  | [], _, _ => none
  | p :: rest, target, i =>
    if p.1 = target then some i else positionAux rest target (i + 1)

/-- Model of `find_occurrence_to_highlight` from `search.rs`.  The outer
`Option` is `none` exactly when the underlying occurrence search panics;
`some none` is the "no highlight" result.  `List.get?` renders the final
bounds-checked indexing (`if occurrence_in_node < occurrences.len()`). -/
def find_occurrence_to_highlight (matchList : List (Nat × Bool))
    (match_index : Nat) (formatted_value search_text : String)
    (case_sensitive : Bool) : Option (Option (Nat × Nat)) :=
  match positionAux matchList match_index 0 with
  | none => some none
  | some local_index =>
    if matchList.length ≤ local_index then some none
    else
      match matchList.get? local_index with
      | none => some none
      | some m =>
        if m.2 then some none
        else
          let occurrence_in_node :=
            (matchList.take local_index).countP (fun p => !p.2)
          match find_all_occurrences formatted_value search_text case_sensitive with
          | none => none
          | some occurrences => some (occurrences.get? occurrence_in_node)

/-- All character positions of `s` at which `pattern` occurs, in
increasing order.  This is the enumeration that the specified overlap
policy — resume one character past each match start — produces. -/
def matchStarts (s pattern : List Char) : List Nat :=
  match s with
  | [] => []
  | _ :: rest =>
    (if pattern.isPrefixOf s then [0] else []) ++
      (matchStarts rest pattern).map (· + 1)

/-- Spans of all (possibly overlapping) occurrences of `pattern` in `s`,
in left-to-right order of start offset; empty for the empty pattern. -/
def overlappingMatchSpans (s pattern : List Char) : List (Nat × Nat) :=
  if pattern.isEmpty then []
  else (matchStarts s pattern).map (fun i => (i, i + pattern.length))

/-- Modelled from the spec (§4.1 grammar): the escaped-key body of a
bracket-quoted component — a backslash escapes the immediately following
character, an unterminated escape or missing closing quote fails; returns
the characters after the closing quote. -/
def specQuotedTail : List Char → Option (List Char)
  | [] => none
  | c :: rest =>
    if c = '\\' then
      match rest with
      | [] => none
      | _ :: rest2 => specQuotedTail rest2
    else if c = '"' then some rest
    else specQuotedTail rest

/-- Modelled from the spec (§4.1 grammar): one component —
`'.' identifier-chars+`, `'[' '"' escaped-key '"' ']'`, or
`'[' digit+ ']'`; identifier runs stop at the next `.` or `[`. Returns the
unconsumed characters. -/
def specComponent (s : List Char) : Option (List Char) :=
  match s with
  | [] => none
  | c :: rest =>
    if c = '.' then
      if (rest.takeWhile keyChar).isEmpty then none
      else some (rest.dropWhile keyChar)
    else if c = '[' then
      match rest with
      | [] => none
      | c2 :: rest2 =>
        if c2 = '"' then
          match specQuotedTail rest2 with
          | none => none
          | some r =>
            match r with
            | [] => none
            | c3 :: r2 => if c3 = ']' then some r2 else none
        else
          if ((c2 :: rest2).takeWhile Char.isDigit).isEmpty then none
          else
            match (c2 :: rest2).dropWhile Char.isDigit with
            | [] => none
            | c3 :: r2 => if c3 = ']' then some r2 else none
    else none

/-- Modelled from the spec: a bracket-digit component additionally denotes
a value representable as `usize` (the amendment forced by the overflow
behaviour of `str::parse::<usize>`). -/
def specComponentB (s : List Char) : Option (List Char) :=
  match s with
  | [] => none
  | c :: rest =>
    if c = '.' then
      if (rest.takeWhile keyChar).isEmpty then none
      else some (rest.dropWhile keyChar)
    else if c = '[' then
      match rest with
      | [] => none
      | c2 :: rest2 =>
        if c2 = '"' then
          match specQuotedTail rest2 with
          | none => none
          | some r =>
            match r with
            | [] => none
            | c3 :: r2 => if c3 = ']' then some r2 else none
        else
          if ((c2 :: rest2).takeWhile Char.isDigit).isEmpty then none
          else if USIZE_MAX < digitsToNat ((c2 :: rest2).takeWhile Char.isDigit) then none
          else
            match (c2 :: rest2).dropWhile Char.isDigit with
            | [] => none
            | c3 :: r2 => if c3 = ']' then some r2 else none
    else none

/-- Modelled from the spec: `component*` — the whole remainder is a
sequence of grammar components (fuelled like `parseSegsF`). -/
def specPathTail : Nat → List Char → Bool
  | _, [] => true
  | 0, _ :: _ => false
  | fuel + 1, c :: rest =>
    match specComponent (c :: rest) with
    | none => false
    | some r => specPathTail fuel r

/-- Fuelled component sequence for the usize-bounded grammar. -/
def specPathTailB : Nat → List Char → Bool
  | _, [] => true
  | 0, _ :: _ => false
  | fuel + 1, c :: rest =>
    match specComponentB (c :: rest) with
    | none => false
    | some r => specPathTailB fuel r

/-- Modelled from the spec (§4.1): `path := '$' component*`, matching the
entire input. -/
def specIsPath (s : String) : Bool :=
  match s.data with
  | [] => false
  | c :: rest => c = '$' && specPathTail rest.length rest

/-- The §4.1 grammar with the usize bound on digit components. -/
def specIsPathB (s : String) : Bool :=
  match s.data with
  | [] => false
  | c :: rest => c = '$' && specPathTailB rest.length rest

theorem findField_eq_none (fields : List (String × Json)) (k : String)
    (h : ∀ p ∈ fields, p.1 ≠ k) : findField fields k = none := by
  induction fields with
  | nil => rfl
  | cons p rest ih =>
    obtain ⟨k', v⟩ := p
    have hk : k' ≠ k := h (k', v) (List.mem_cons_self _ _)
    simp only [findField, if_neg hk]
    exact ih fun q hq => h q (List.mem_cons_of_mem _ hq)

/-- C7: single-document lookup is type-safe and total: a `Key` segment on a
non-object or on an object lacking the member fails, an `Index` segment on
a non-array or out of range fails, the empty segment sequence returns the
whole value, and `lookup_in_value` always returns a value of `Option`
(it can never fault). -/
theorem c7_lookup_type_safety :
    (∀ v : Json, lookup_in_value v [] = some v)
  ∧ (∀ (v : Json) (k : String) (rest : List PathSegment),
        (∀ fields, v ≠ Json.obj fields) →
        lookup_in_value v (PathSegment.Key k :: rest) = none)
  ∧ (∀ (fields : List (String × Json)) (k : String) (rest : List PathSegment),
        (∀ p ∈ fields, p.1 ≠ k) →
        lookup_in_value (Json.obj fields) (PathSegment.Key k :: rest) = none)
  ∧ (∀ (v : Json) (i : Nat) (rest : List PathSegment),
        (∀ elems, v ≠ Json.arr elems) →
        lookup_in_value v (PathSegment.Index i :: rest) = none)
  ∧ (∀ (elems : List Json) (i : Nat) (rest : List PathSegment),
        elems.length ≤ i →
        lookup_in_value (Json.arr elems) (PathSegment.Index i :: rest) = none)
  ∧ (∀ (v : Json) (segs : List PathSegment),
        lookup_in_value v segs = none ∨ ∃ u, lookup_in_value v segs = some u) := by
  refine ⟨fun v => rfl, ?_, ?_, ?_, ?_, ?_⟩
  · intro v k rest h
    cases v with
    | obj fields => exact absurd rfl (h fields)
    | _ => simp [lookup_in_value, Json.getKey]
  · intro fields k rest h
    simp [lookup_in_value, Json.getKey, findField_eq_none fields k h]
  · intro v i rest h
    cases v with
    | arr elems => exact absurd rfl (h elems)
    | _ => simp [lookup_in_value, Json.getIdx]
  · intro elems i rest h
    simp [lookup_in_value, Json.getIdx, List.getElem?_eq_none h]
  · intro v segs
    cases h : lookup_in_value v segs with
    | none => exact Or.inl rfl
    | some u => exact Or.inr ⟨u, rfl⟩

/-- Witness for C7 at concrete inputs: a key against an array, a missing
key against an object, and an out-of-range index against an array. -/
theorem c7_witness :
    lookup_in_value (Json.arr []) [PathSegment.Key "a"] = none
  ∧ lookup_in_value (Json.obj [("b", Json.null)]) [PathSegment.Key "a"] = none
  ∧ lookup_in_value (Json.arr [Json.null]) [PathSegment.Index 1] = none := by
  refine ⟨?_, ?_, ?_⟩
  · exact c7_lookup_type_safety.2.1 (Json.arr []) "a" []
      (fun fields h => Json.noConfusion h)
  · refine c7_lookup_type_safety.2.2.1 [("b", Json.null)] "a" [] ?_
    intro p hp
    rw [List.mem_singleton] at hp
    subst hp
    decide
  · exact c7_lookup_type_safety.2.2.2.2.1 [Json.null] 1 [] (by decide)

/-- C5: the document store returns the line-count summary for the literal
path `$` on a JSONL store built from `vs`, and the stored value itself for
a single document. -/
theorem c5_root_lookup (vs : List Json) (v : Json) :
    StoredDocument.lookup_value (StoredDocument.JsonL (JsonLDocument.new vs)) "$"
        = some (Json.obj [("lines", Json.num (Int.ofNat vs.length))])
  ∧ StoredDocument.lookup_value (StoredDocument.Single v) "$" = some v :=
  ⟨rfl, rfl⟩

/-- C9: lookup over a line-delimited collection: the empty segment
sequence is not found, a leading `Key` segment is not found, a leading
`Index` is not found when out of range and otherwise resolves the rest
against the selected line by the single-value rules. -/
theorem c9_jsonl_levels (values : List Json) (path : String)
    (segs : List PathSegment) (h : parse_json_path path = some segs) :
    (segs = [] → lookup_value_in_jsonl values path = none)
  ∧ (∀ k rest, segs = PathSegment.Key k :: rest →
        lookup_value_in_jsonl values path = none)
  ∧ (∀ i rest, segs = PathSegment.Index i :: rest →
        (values.length ≤ i → lookup_value_in_jsonl values path = none)
      ∧ (∀ v, values.get? i = some v →
            lookup_value_in_jsonl values path = lookup_in_value v rest)) := by
  refine ⟨?_, ?_, ?_⟩
  · intro he
    subst he
    simp [lookup_value_in_jsonl, h]
  · intro k rest he
    subst he
    simp [lookup_value_in_jsonl, h]
  · intro i rest he
    subst he
    constructor
    · intro hlen
      simp [lookup_value_in_jsonl, h, List.getElem?_eq_none hlen]
    · intro v hv
      rw [List.get?_eq_getElem?] at hv
      simp [lookup_value_in_jsonl, h, hv]

/-- Witness for C9 at concrete inputs: the three levels on a two-line
collection. -/
theorem c9_witness :
    lookup_value_in_jsonl [Json.str "a", Json.str "b"] "$" = none
  ∧ lookup_value_in_jsonl [Json.str "a", Json.str "b"] "$.name" = none
  ∧ lookup_value_in_jsonl [Json.str "a", Json.str "b"] "$[2]" = none
  ∧ lookup_value_in_jsonl [Json.str "a", Json.str "b"] "$[1]"
      = lookup_in_value (Json.str "b") [] := by
  refine ⟨?_, ?_, ?_, ?_⟩
  · exact (c9_jsonl_levels _ "$" [] rfl).1 rfl
  · exact (c9_jsonl_levels _ "$.name" [PathSegment.Key "name"] rfl).2.1 "name" [] rfl
  · exact (((c9_jsonl_levels _ "$[2]" [PathSegment.Index 2] rfl).2.2 2 [] rfl).1 (by decide))
  · exact (((c9_jsonl_levels _ "$[1]" [PathSegment.Index 1] rfl).2.2 1 [] rfl).2
      (Json.str "b") rfl)

theorem isDigit_ne_syntax (c : Char) (h : c.isDigit = true) :
    c ≠ ']' ∧ c ≠ '"' ∧ c ≠ '.' ∧ c ≠ '[' ∧ c ≠ '$' := by
  refine ⟨?_, ?_, ?_, ?_, ?_⟩ <;> rintro rfl <;> exact absurd h (by decide)

theorem parseIndexBody_digits (ds : List Char) (r : List Char)
    (h : ∀ c ∈ ds, c.isDigit) :
    parseIndexBody (ds ++ ']' :: r) = some (ds, r) := by
  induction ds with
  | nil => rfl
  | cons d ds ih =>
    have hd : d.isDigit := h d (List.mem_cons_self _ _)
    have hne := isDigit_ne_syntax d hd
    simp only [List.cons_append, parseIndexBody, if_neg hne.1, hd, if_pos]
    rw [List.append_eq, ih fun c hc => h c (List.mem_cons_of_mem _ hc)]

/-- C10: a path consisting of `$` and one bracketed all-digit run whose
value exceeds the usize range fails the whole parse (no wrapping or
truncation). -/
theorem c10_index_overflow (ds : List Char) (h1 : ds ≠ [])
    (h2 : ∀ c ∈ ds, c.isDigit) (h3 : USIZE_MAX < digitsToNat ds) :
    parse_json_path (String.mk ('$' :: '[' :: (ds ++ [']']))) = none := by
  obtain ⟨d, ds', rfl⟩ := List.exists_cons_of_ne_nil h1
  have hd : d.isDigit := h2 d (List.mem_cons_self _ _)
  have hne := isDigit_ne_syntax d hd
  simp only [parse_json_path, String.mk, if_pos rfl]
  have hbody : parseIndexBody ((d :: ds') ++ ']' :: ([] : List Char))
      = some (d :: ds', []) := parseIndexBody_digits _ _ h2
  simp only [List.cons_append, List.length_cons, List.append_nil] at hbody ⊢
  simp only [parseSegsF, parseComp, parseBracket, parseIndex,
    if_neg (by decide : ¬('[' : Char) = '.'), if_pos rfl, if_neg hne.2.1, hbody]
  simp [parseUsize, not_le.mpr h3]

/-- Witness for C10: a twenty-digit index is rejected as a whole-parse
failure. -/
theorem c10_witness : parse_json_path "$[99999999999999999999]" = none := by
  have h := c10_index_overflow "99999999999999999999".data (by decide) (by decide)
    (by decide)
  exact h

theorem positionAux_eq_none (l : List (Nat × Bool)) (target i : Nat)
    (h : ∀ p ∈ l, p.1 ≠ target) : positionAux l target i = none := by
  induction l generalizing i with
  | nil => rfl
  | cons p rest ih =>
    have hp : p.1 ≠ target := h p (List.mem_cons_self _ _)
    simp only [positionAux, if_neg hp]
    exact ih (i + 1) fun q hq => h q (List.mem_cons_of_mem _ hq)

theorem positionAux_eq_first (l : List (Nat × Bool)) (target i ℓ : Nat)
    (q : Nat × Bool) (hq : l.get? ℓ = some q) (hqt : q.1 = target)
    (hleast : ∀ j < ℓ, ∀ p, l.get? j = some p → p.1 ≠ target) :
    positionAux l target i = some (i + ℓ) := by
  induction l generalizing i ℓ with
  | nil => simp at hq
  | cons p rest ih =>
    cases ℓ with
    | zero =>
      simp only [List.get?] at hq
      cases hq
      simp [positionAux, hqt]
    | succ m =>
      have hp : p.1 ≠ target :=
        hleast 0 (Nat.succ_pos m) p rfl
      simp only [positionAux, if_neg hp]
      have := ih (i + 1) m hq
        (fun j hj r hr => hleast (j + 1) (Nat.succ_lt_succ hj) r hr)
      rw [this]
      congr 1
      omega

/-- C4: resolving a global match index yields no highlight when the index
is absent from the match list or the located (first-matching) record is a
key match; otherwise, with `r` the number of value matches strictly before
the located record, it yields the `r`-th occurrence span when `r` is in
range of the occurrence list and no highlight when it is not, expressed by
the total indexing `List.get?` — never an out-of-range access.  Stated
conditionally on the occurrence search returning (its panic case is
claim C3). -/
theorem c4_highlight_resolution (matchList : List (Nat × Bool))
    (match_index : Nat) (fv st : String) (cs : Bool) :
    ((∀ p ∈ matchList, p.1 ≠ match_index) →
        find_occurrence_to_highlight matchList match_index fv st cs = some none)
  ∧ (∀ ℓ g, matchList.get? ℓ = some (g, true) → g = match_index →
        (∀ j < ℓ, ∀ q, matchList.get? j = some q → q.1 ≠ match_index) →
        find_occurrence_to_highlight matchList match_index fv st cs = some none)
  ∧ (∀ ℓ g occs, matchList.get? ℓ = some (g, false) → g = match_index →
        (∀ j < ℓ, ∀ q, matchList.get? j = some q → q.1 ≠ match_index) →
        find_all_occurrences fv st cs = some occs →
        find_occurrence_to_highlight matchList match_index fv st cs =
          some (occs.get? ((matchList.take ℓ).countP (fun p => !p.2)))) := by
  refine ⟨?_, ?_, ?_⟩
  · intro h
    simp [find_occurrence_to_highlight, positionAux_eq_none matchList match_index 0 h]
  · intro ℓ g hget hg hleast
    have hpos : positionAux matchList match_index 0 = some (0 + ℓ) :=
      positionAux_eq_first matchList match_index 0 ℓ (g, true) hget hg hleast
    rw [Nat.zero_add] at hpos
    have hget' : matchList[ℓ]? = some (g, true) := by
      rw [← List.get?_eq_getElem?]
      exact hget
    obtain ⟨hlt, -⟩ := List.get?_eq_some.mp hget
    simp [find_occurrence_to_highlight, hpos, Nat.not_le.mpr hlt, hget']
  · intro ℓ g occs hget hg hleast hocc
    have hpos : positionAux matchList match_index 0 = some (0 + ℓ) :=
      positionAux_eq_first matchList match_index 0 ℓ (g, false) hget hg hleast
    rw [Nat.zero_add] at hpos
    have hget' : matchList[ℓ]? = some (g, false) := by
      rw [← List.get?_eq_getElem?]
      exact hget
    obtain ⟨hlt, -⟩ := List.get?_eq_some.mp hget
    simp [find_occurrence_to_highlight, hpos, Nat.not_le.mpr hlt, hget', hocc]

/-- Witness for C4: the key-vs-value exclusion example of the spec — a
key match yields no highlight, the second value match highlights the
second occurrence, and an absent global index yields no highlight. -/
theorem c4_witness :
    find_occurrence_to_highlight [(0, true), (1, false), (2, false)] 2
        "hello world hello" "hello" true = some (some (12, 17))
  ∧ find_occurrence_to_highlight [(0, true), (1, false), (2, false)] 0
        "hello world hello" "hello" true = some none
  ∧ find_occurrence_to_highlight [(0, false), (1, false)] 5
        "hello world" "hello" true = some none := by
  refine ⟨?_, ?_, ?_⟩
  · have h := (c4_highlight_resolution [(0, true), (1, false), (2, false)] 2
        "hello world hello" "hello" true).2.2 2 2 [(0, 5), (12, 17)] rfl rfl
        ?_ rfl
    · simpa using h
    · intro j hj q hq
      interval_cases j <;> simp only [List.get?, Option.some.injEq] at hq <;>
        subst hq <;> decide
  · have h := (c4_highlight_resolution [(0, true), (1, false), (2, false)] 0
        "hello world hello" "hello" true).2.1 0 0 rfl rfl (by omega)
    exact h
  · have h := (c4_highlight_resolution [(0, false), (1, false)] 5
        "hello world" "hello" true).1 (by decide)
    exact h

theorem utf8Len_pos (c : Char) : 1 ≤ utf8Len c := by
  unfold utf8Len
  split
  · omega
  split
  · omega
  split <;> omega

theorem byteLen_cons (c : Char) (s : List Char) :
    byteLen (c :: s) = utf8Len c + byteLen s := by
  simp [byteLen]

theorem byteLen_append (a b : List Char) :
    byteLen (a ++ b) = byteLen a + byteLen b := by
  simp [byteLen]

theorem byteLen_pos (s : List Char) (h : s ≠ []) : 1 ≤ byteLen s := by
  cases s with
  | nil => exact absurd rfl h
  | cons c rest =>
    rw [byteLen_cons]
    have := utf8Len_pos c
    omega

theorem byteLen_eq_zero (s : List Char) (h : byteLen s = 0) : s = [] := by
  cases s with
  | nil => rfl
  | cons c rest =>
    rw [byteLen_cons] at h
    have := utf8Len_pos c
    omega

theorem splitAtByte_zero (s : List Char) : splitAtByte s 0 = some (0, s) := by
  cases s <;> rfl

theorem splitAtByte_spec (s : List Char) (n k : Nat) (suffix : List Char)
    (h : splitAtByte s n = some (k, suffix)) :
    k ≤ s.length ∧ suffix = s.drop k ∧ n = byteLen (s.take k) := by
  induction s generalizing n k suffix with
  | nil =>
    cases n with
    | zero =>
      simp only [splitAtByte, Option.some.injEq, Prod.mk.injEq] at h
      obtain ⟨rfl, rfl⟩ := h
      simp [byteLen]
    | succ m => simp [splitAtByte] at h
  | cons c rest ih =>
    cases n with
    | zero =>
      simp only [splitAtByte, Option.some.injEq, Prod.mk.injEq] at h
      obtain ⟨rfl, rfl⟩ := h
      simp [byteLen]
    | succ m =>
      simp only [splitAtByte] at h
      by_cases hle : utf8Len c ≤ m + 1
      · rw [if_pos hle] at h
        cases hsplit : splitAtByte rest (m + 1 - utf8Len c) with
        | none => rw [hsplit] at h; exact absurd h (by simp)
        | some p =>
          obtain ⟨k', suffix'⟩ := p
          rw [hsplit] at h
          simp only [Option.some.injEq, Prod.mk.injEq] at h
          obtain ⟨hk, hsuf⟩ := h
          subst hk
          subst hsuf
          obtain ⟨h1, h2, h3⟩ := ih (m + 1 - utf8Len c) k' suffix' hsplit
          refine ⟨by simpa using Nat.succ_le_succ h1, by simpa using h2, ?_⟩
          rw [List.take_succ_cons, byteLen_cons, ← h3]
          omega
      · rw [if_neg hle] at h
        exact absurd h (by simp)

theorem csLoopF_some_split (fuel : Nat) (text pattern : List Char)
    (startByte : Nat) (occs : List (Nat × Nat))
    (h : csLoopF fuel text pattern startByte = some occs) :
    ∃ k suffix, splitAtByte text startByte = some (k, suffix) := by
  cases fuel with
  | zero => exact absurd h (by simp [csLoopF])
  | succ f =>
    simp only [csLoopF] at h
    cases hs : splitAtByte text startByte with
    | none =>
      rw [hs] at h
      exact absurd h (by simp)
    | some p =>
      obtain ⟨k, suffix⟩ := p
      exact ⟨k, suffix, rfl⟩

theorem isPrefixOf_nil_false (p : List Char) (h : p ≠ []) :
    p.isPrefixOf [] = false := by
  cases p with
  | nil => exact absurd rfl h
  | cons a as => rfl

theorem charFindAux_some (pattern s : List Char) (i r : Nat)
    (h : charFindAux pattern s i = some r) :
    ∃ j, r = i + j ∧ pattern.isPrefixOf (s.drop j) = true ∧
      ∀ j' < j, pattern.isPrefixOf (s.drop j') = false := by
  induction s generalizing i with
  | nil =>
    simp only [charFindAux] at h
    by_cases hp : pattern.isEmpty = true
    · rw [if_pos hp] at h
      cases h
      refine ⟨0, by omega, ?_, by omega⟩
      rw [List.isEmpty_iff] at hp
      subst hp
      rfl
    · rw [if_neg hp] at h
      exact absurd h (by simp)
  | cons c rest ih =>
    simp only [charFindAux] at h
    by_cases hp : pattern.isPrefixOf (c :: rest) = true
    · rw [if_pos hp] at h
      cases h
      exact ⟨0, by omega, by simpa using hp, by omega⟩
    · rw [if_neg hp] at h
      obtain ⟨j, hj, hpre, hleast⟩ := ih (i + 1) h
      refine ⟨j + 1, by omega, by simpa [List.drop_succ_cons] using hpre, ?_⟩
      intro j' hj'
      cases j' with
      | zero =>
        rw [List.drop_zero]
        exact Bool.not_eq_true _ ▸ Bool.eq_false_iff.mpr hp
      | succ m =>
        rw [List.drop_succ_cons]
        exact hleast m (by omega)

theorem charFindAux_none (pattern s : List Char) (i : Nat)
    (h : charFindAux pattern s i = none) (hp : pattern ≠ []) :
    ∀ j, pattern.isPrefixOf (s.drop j) = false := by
  induction s generalizing i with
  | nil =>
    intro j
    rw [List.drop_nil]
    exact isPrefixOf_nil_false pattern hp
  | cons c rest ih =>
    simp only [charFindAux] at h
    by_cases hpre : pattern.isPrefixOf (c :: rest) = true
    · rw [if_pos hpre] at h
      exact absurd h (by simp)
    · rw [if_neg hpre] at h
      intro j
      cases j with
      | zero =>
        rw [List.drop_zero]
        exact Bool.eq_false_iff.mpr hpre
      | succ m =>
        rw [List.drop_succ_cons]
        exact ih (i + 1) h m

theorem matchStarts_eq_nil (s pattern : List Char)
    (h : ∀ j, pattern.isPrefixOf (s.drop j) = false) :
    matchStarts s pattern = [] := by
  induction s with
  | nil => rfl
  | cons c rest ih =>
    have h0 := h 0
    rw [List.drop_zero] at h0
    have htail : matchStarts rest pattern = [] := by
      refine ih fun j => ?_
      have := h (j + 1)
      rwa [List.drop_succ_cons] at this
    simp [matchStarts, h0, htail]

theorem matchStarts_eq_cons (s pattern : List Char) (j : Nat) (hp : pattern ≠ [])
    (hj : pattern.isPrefixOf (s.drop j) = true)
    (hleast : ∀ j' < j, pattern.isPrefixOf (s.drop j') = false) :
    matchStarts s pattern
      = j :: (matchStarts (s.drop (j + 1)) pattern).map (· + (j + 1)) := by
  induction j generalizing s with
  | zero =>
    cases s with
    | nil =>
      rw [List.drop_nil, isPrefixOf_nil_false pattern hp] at hj
      cases hj
    | cons c rest =>
      rw [List.drop_zero] at hj
      simp [matchStarts, hj]
  | succ m ih =>
    cases s with
    | nil =>
      rw [List.drop_nil, isPrefixOf_nil_false pattern hp] at hj
      cases hj
    | cons c rest =>
      have h0 := hleast 0 (Nat.succ_pos m)
      rw [List.drop_zero] at h0
      have hj' : pattern.isPrefixOf (rest.drop m) = true := by
        rwa [List.drop_succ_cons] at hj
      have hleast' : ∀ j' < m, pattern.isPrefixOf (rest.drop j') = false := by
        intro j' hlt
        have := hleast (j' + 1) (Nat.succ_lt_succ hlt)
        rwa [List.drop_succ_cons] at this
      simp only [matchStarts, h0, Bool.false_eq_true, if_false, List.nil_append]
      rw [ih rest hj' hleast']
      simp only [List.map_cons, List.map_map, List.drop_succ_cons]
      refine congrArg₂ List.cons rfl ?_
      apply List.map_congr_left
      intro a _
      simp only [Function.comp_apply]
      omega

theorem mem_matchStarts (s pattern : List Char) (i : Nat)
    (h : i ∈ matchStarts s pattern) :
    pattern.isPrefixOf (s.drop i) = true := by
  induction s generalizing i with
  | nil => simp [matchStarts] at h
  | cons c rest ih =>
    simp only [matchStarts] at h
    rw [List.mem_append] at h
    cases h with
    | inl h1 =>
      by_cases hpre : pattern.isPrefixOf (c :: rest) = true
      · rw [if_pos hpre, List.mem_singleton] at h1
        subst h1
        rw [List.drop_zero]
        exact hpre
      · rw [if_neg hpre] at h1
        simp at h1
    | inr h2 =>
      rw [List.mem_map] at h2
      obtain ⟨i', hi', rfl⟩ := h2
      rw [show i' + 1 = i' + 1 from rfl, List.drop_succ_cons]
      exact ih i' hi'

theorem matchStarts_pairwise (s pattern : List Char) :
    List.Pairwise (· < ·) (matchStarts s pattern) := by
  induction s with
  | nil => simp [matchStarts]
  | cons c rest ih =>
    have hmap : List.Pairwise (· < ·) ((matchStarts rest pattern).map (· + 1)) :=
      List.Pairwise.map _ (fun a b hab => by omega) ih
    by_cases hpre : pattern.isPrefixOf (c :: rest) = true
    · simp only [matchStarts, hpre, if_true, List.singleton_append]
      refine List.pairwise_cons.mpr ⟨?_, hmap⟩
      intro b hb
      rw [List.mem_map] at hb
      obtain ⟨a, -, rfl⟩ := hb
      omega
    · simp only [matchStarts, hpre, Bool.false_eq_true, if_false, List.nil_append]
      exact hmap

theorem byteLen_take_mono (s : List Char) (a b : Nat) (h : a ≤ b) :
    byteLen (s.take a) ≤ byteLen (s.take b) := by
  have : s.take b = s.take a ++ (s.drop a).take (b - a) := by
    rw [← List.take_add]
    congr 1
    omega
  rw [this, byteLen_append]
  omega

theorem byteLen_take_strict (s : List Char) (a b : Nat) (ha : a < s.length)
    (h : a < b) : byteLen (s.take a) < byteLen (s.take b) := by
  have hsplit : s.take b = s.take a ++ (s.drop a).take (b - a) := by
    rw [← List.take_add]
    congr 1
    omega
  have hne : (s.drop a).take (b - a) ≠ [] := by
    rw [← List.length_pos_iff_ne_nil, List.length_take, List.length_drop]
    omega
  have := byteLen_pos _ hne
  rw [hsplit, byteLen_append]
  omega

theorem csLoopF_some_spec (fuel : Nat) :
    ∀ (text pattern : List Char) (startByte k : Nat) (suffix : List Char)
      (occs : List (Nat × Nat)),
    pattern ≠ [] →
    csLoopF fuel text pattern startByte = some occs →
    splitAtByte text startByte = some (k, suffix) →
    occs = (matchStarts suffix pattern).map
      (fun j => (k + j, k + j + pattern.length)) := by
  induction fuel with
  | zero =>
    intro text pattern startByte k suffix occs hp h hs
    exact absurd h (by simp [csLoopF])
  | succ f ih =>
    intro text pattern startByte k suffix occs hp h hs
    simp only [csLoopF, hs] at h
    obtain ⟨hk, hsuf, hsb⟩ := splitAtByte_spec text startByte k suffix hs
    cases hf : charFind suffix pattern with
    | none =>
      rw [hf] at h
      simp only [Option.some.injEq] at h
      have hnone := charFindAux_none pattern suffix 0 hf hp
      rw [matchStarts_eq_nil suffix pattern hnone, List.map_nil]
      exact h.symm
    | some j =>
      rw [hf] at h
      simp only [] at h
      have hcf : charFindAux pattern suffix 0 = some j := hf
      obtain ⟨j₀, hj₀, hpre, hleast⟩ := charFindAux_some pattern suffix 0 j hcf
      have hjj : j₀ = j := by omega
      subst hjj
      have hdropne : suffix.drop j₀ ≠ [] := by
        intro hnil
        rw [hnil, isPrefixOf_nil_false pattern hp] at hpre
        cases hpre
      have hjlt : j₀ < suffix.length := by
        by_contra hge
        rw [List.drop_eq_nil_iff.mpr (by omega)] at hdropne
        exact hdropne rfl
      have hbytes : byteLen text = byteLen (text.take k) + byteLen suffix := by
        conv_lhs => rw [← List.take_append_drop k text]
        rw [byteLen_append, hsuf]
      have hsplitsuf : byteLen suffix
          = byteLen (suffix.take j₀) + byteLen (suffix.drop j₀) := by
        conv_lhs => rw [← List.take_append_drop j₀ suffix]
        rw [byteLen_append]
      by_cases hle : byteLen text ≤ startByte + byteLen (suffix.take j₀) + 1
      · rw [if_pos hle] at h
        simp only [Option.some.injEq] at h
        have hdrop1 : byteLen (suffix.drop j₀) ≤ 1 := by omega
        obtain ⟨d, t, hdt⟩ := List.exists_cons_of_ne_nil hdropne
        have ht : t = [] := by
          apply byteLen_eq_zero
          rw [hdt, byteLen_cons] at hdrop1
          have := utf8Len_pos d
          omega
        have hdropsucc : suffix.drop (j₀ + 1) = [] := by
          rw [List.drop_eq_nil_iff]
          have hlen1 : (suffix.drop j₀).length = 1 := by
            rw [hdt, ht]
            rfl
          rw [List.length_drop] at hlen1
          omega
        rw [matchStarts_eq_cons suffix pattern j₀ hp hpre hleast, hdropsucc]
        simp only [matchStarts, List.map_nil, List.map_cons]
        exact h.symm
      · rw [if_neg hle] at h
        cases hrec : csLoopF f text pattern (startByte + byteLen (suffix.take j₀) + 1) with
        | none =>
          rw [hrec] at h
          exact absurd h (by simp)
        | some occs' =>
          rw [hrec] at h
          simp only [Option.some.injEq] at h
          obtain ⟨k', suffix', hs2⟩ :=
            csLoopF_some_split f text pattern _ occs' hrec
          obtain ⟨hk2, hsuf2, hsb2⟩ := splitAtByte_spec text _ k' suffix' hs2
          have hmlt : k + j₀ < text.length := by
            rw [hsuf, List.length_drop] at hjlt
            omega
          have htakem : byteLen (text.take (k + j₀))
              = byteLen (text.take k) + byteLen (suffix.take j₀) := by
            rw [List.take_add, byteLen_append, hsuf]
          have hforward : byteLen (text.take (k + j₀ + 1))
              ≥ byteLen (text.take (k + j₀)) + 1 := by
            have := byteLen_take_strict text (k + j₀) (k + j₀ + 1) hmlt (by omega)
            omega
          have hk' : k' = k + j₀ + 1 := by
            by_contra hne
            rcases Nat.lt_or_ge k' (k + j₀ + 1) with hlt | hge
            · have hmono := byteLen_take_mono text k' (k + j₀) (by omega)
              omega
            · have hgt : k + j₀ + 1 < k' := by omega
              have hlen : k + j₀ + 1 < text.length := by omega
              have := byteLen_take_strict text (k + j₀ + 1) k' hlen hgt
              have hmono := byteLen_take_mono text (k + j₀ + 1) k' (by omega)
              omega
          have hsuffix' : suffix' = suffix.drop (j₀ + 1) := by
            rw [hsuf2, hk', hsuf, List.drop_drop]
            rfl
          have hih := ih text pattern _ k' suffix' occs' hp hrec hs2
          rw [← h]
          rw [matchStarts_eq_cons suffix pattern j₀ hp hpre hleast,
            List.map_cons, List.map_map]
          refine congrArg₂ List.cons rfl ?_
          rw [hih, hsuffix']
          apply List.map_congr_left
          intro a _
          simp only [Function.comp_apply, Prod.mk.injEq]
          constructor <;> omega

theorem find_all_cs_eq_spans (text pattern : String) (occs : List (Nat × Nat))
    (h : find_all_occurrences text pattern true = some occs) :
    occs = overlappingMatchSpans text.data pattern.data := by
  by_cases hp : pattern.data.isEmpty = true
  · rw [find_all_occurrences, if_pos hp] at h
    simp only [Option.some.injEq] at h
    rw [overlappingMatchSpans, if_pos hp]
    exact h.symm
  · have hp' : pattern.data ≠ [] := by
      intro hnil
      rw [hnil] at hp
      exact hp rfl
    have hlen : ¬ pattern.data.length = 0 :=
      fun h0 => hp' (List.length_eq_zero.mp h0)
    rw [find_all_occurrences, if_neg hp, if_neg hlen, if_pos rfl] at h
    have := csLoopF_some_spec (byteLen text.data + 1) text.data pattern.data 0 0
      text.data occs hp' h (splitAtByte_zero text.data)
    rw [this, overlappingMatchSpans, if_neg hp]
    congr 1
    funext x
    simp

/-- C2: whenever the case-sensitive search returns (its panic case is
claim C3), the returned list is the complete enumeration of all — also
overlapping — match start positions in increasing order, exactly what
resuming one character position past each match start produces; in
particular pattern `aa` over `aaa` yields the two overlapping spans. -/
theorem c2_overlap_policy :
    (∀ (text pattern : String) (occs : List (Nat × Nat)),
        find_all_occurrences text pattern true = some occs →
        occs = overlappingMatchSpans text.data pattern.data
      ∧ List.Pairwise (fun a b => a.1 < b.1) occs)
  ∧ find_all_occurrences "aaa" "aa" true = some [(0, 2), (1, 3)] := by
  constructor
  · intro text pattern occs h
    have heq := find_all_cs_eq_spans text pattern occs h
    refine ⟨heq, ?_⟩
    rw [heq, overlappingMatchSpans]
    by_cases hp : pattern.data.isEmpty = true
    · rw [if_pos hp]
      simp
    · rw [if_neg hp]
      exact List.Pairwise.map _ (fun a b hab => hab)
        (matchStarts_pairwise text.data pattern.data)
  · rfl

/-- Witness for C2 at the concrete overlapping example. -/
theorem c2_witness :
    [((0 : Nat), (2 : Nat)), (1, 3)] = overlappingMatchSpans "aaa".data "aa".data
  ∧ List.Pairwise (fun a b => a.1 < b.1) [((0 : Nat), (2 : Nat)), (1, 3)] :=
  c2_overlap_policy.1 "aaa" "aa" [(0, 2), (1, 3)] rfl

/-- C8: occurrence offsets are character offsets: the curly-apostrophe
example yields the spans 7–14 and 20–27, and in general every span
returned by a (returning) case-sensitive search delimits, in character
units, exactly the pattern inside the text. -/
theorem c8_char_offsets :
    find_all_occurrences "you’ll example then example" "example" true
        = some [(7, 14), (20, 27)]
  ∧ (∀ (text pattern : String) (occs : List (Nat × Nat)) (s e : Nat),
        find_all_occurrences text pattern true = some occs →
        (s, e) ∈ occs →
        e = s + pattern.data.length
      ∧ pattern.data.isPrefixOf (text.data.drop s) = true) := by
  constructor
  · rfl
  · intro text pattern occs s e h hmem
    have heq := find_all_cs_eq_spans text pattern occs h
    rw [heq, overlappingMatchSpans] at hmem
    by_cases hp : pattern.data.isEmpty = true
    · rw [if_pos hp] at hmem
      simp at hmem
    · rw [if_neg hp] at hmem
      rw [List.mem_map] at hmem
      obtain ⟨i, hi, hpair⟩ := hmem
      have h1 : i = s := congrArg Prod.fst hpair
      have h2 : i + pattern.data.length = e := congrArg Prod.snd hpair
      subst h1
      exact ⟨h2.symm, mem_matchStarts text.data pattern.data i hi⟩

/-- Witness for C8's universal part at a concrete input. -/
theorem c8_witness :
    (5 : Nat) = 3 + "ab".data.length
  ∧ "ab".data.isPrefixOf ("abcab".data.drop 3) = true :=
  c8_char_offsets.2 "abcab" "ab" [(0, 2), (3, 5)] 3 5 rfl (by decide)

/-- C3: the case-sensitive branch of `find_all_occurrences` is not total:
on text `éé` and pattern `é` the Rust code records the match at character
0 and then advances `start_byte` to byte 1, which falls inside the
two-byte encoding of `é`, so the next slice `&text[1..]` panics (modelled
by `none`).  The case-insensitive branch, by contrast, always returns. -/
theorem c3_multibyte_first_panics :
    find_all_occurrences "éé" "é" true = none
  ∧ (∀ text pattern : String, ∃ r,
        find_all_occurrences text pattern false = some r) := by
  constructor
  · rfl
  · intro text pattern
    rw [find_all_occurrences]
    by_cases hp : pattern.data.isEmpty = true
    · rw [if_pos hp]
      exact ⟨[], rfl⟩
    · rw [if_neg hp]
      have hlen : ¬ pattern.data.length = 0 := by
        intro h0
        rw [List.length_eq_zero] at h0
        rw [h0] at hp
        exact hp rfl
      rw [if_neg hlen]
      simp only [Bool.false_eq_true, if_false]
      by_cases hq : (strLower pattern.data).isEmpty = true
      · rw [if_pos hq]
        exact ⟨[], rfl⟩
      · rw [if_neg hq]
        exact ⟨_, rfl⟩

theorem dropWhile_length_le (P : Char → Bool) (l : List Char) :
    (l.dropWhile P).length ≤ l.length := by
  induction l with
  | nil => simp
  | cons c rest ih =>
    rw [List.dropWhile_cons]
    by_cases h : P c = true
    · rw [if_pos h]
      simp only [List.length_cons]
      omega
    · rw [if_neg h]

theorem parseQuotedBody_length (s : List Char) :
    ∀ k r, parseQuotedBody s = some (k, r) → r.length < s.length := by
  induction s using parseQuotedBody.induct with
  | case1 =>
    intro k r h
    simp [parseQuotedBody] at h
  | case2 =>
    intro k r h
    simp [parseQuotedBody] at h
  | case3 e rest2 hnone ih =>
    intro k r h
    simp [parseQuotedBody, hnone] at h
  | case4 e rest2 k0 r0 hsome ih =>
    intro k r h
    simp [parseQuotedBody, hsome] at h
    obtain ⟨h1, h2⟩ := h
    subst h2
    have := ih k0 r0 hsome
    simp only [List.length_cons]
    omega
  | case5 rest2 hne =>
    intro k r h
    rw [parseQuotedBody.eq_def] at h
    simp at h
    obtain ⟨h1, h2⟩ := h
    subst h2
    simp only [List.length_cons]
    omega
  | case6 e rest2 hne1 hne2 hnone ih =>
    intro k r h
    rw [parseQuotedBody.eq_def] at h
    simp [hne1, hne2, hnone] at h
  | case7 e rest2 hne1 hne2 k0 r0 hsome ih =>
    intro k r h
    rw [parseQuotedBody.eq_def] at h
    simp [hne1, hne2, hsome] at h
    obtain ⟨h1, h2⟩ := h
    subst h2
    have := ih k0 r0 hsome
    simp only [List.length_cons]
    omega

theorem parseQuotedBody_append (s : List Char) (y : List Char) :
    ∀ k r, parseQuotedBody s = some (k, r) →
      parseQuotedBody (s ++ y) = some (k, r ++ y) := by
  induction s using parseQuotedBody.induct with
  | case1 =>
    intro k r h
    simp [parseQuotedBody] at h
  | case2 =>
    intro k r h
    simp [parseQuotedBody] at h
  | case3 e rest2 hnone ih =>
    intro k r h
    simp [parseQuotedBody, hnone] at h
  | case4 e rest2 k0 r0 hsome ih =>
    intro k r h
    simp [parseQuotedBody, hsome] at h
    obtain ⟨h1, h2⟩ := h
    subst h1
    subst h2
    simp [parseQuotedBody, ih k0 r0 hsome]
  | case5 rest2 hne =>
    intro k r h
    rw [parseQuotedBody.eq_def] at h
    simp at h
    obtain ⟨h1, h2⟩ := h
    subst h1
    subst h2
    rw [List.cons_append, parseQuotedBody.eq_def]
    simp
  | case6 e rest2 hne1 hne2 hnone ih =>
    intro k r h
    rw [parseQuotedBody.eq_def] at h
    simp [hne1, hne2, hnone] at h
  | case7 e rest2 hne1 hne2 k0 r0 hsome ih =>
    intro k r h
    rw [parseQuotedBody.eq_def] at h
    simp [hne1, hne2, hsome] at h
    obtain ⟨h1, h2⟩ := h
    subst h1
    subst h2
    rw [List.cons_append, parseQuotedBody.eq_def]
    simp [hne1, hne2, ih k0 r0 hsome]

theorem parseIndexBody_length (s : List Char) :
    ∀ ds r, parseIndexBody s = some (ds, r) → r.length < s.length := by
  induction s with
  | nil =>
    intro ds r h
    simp [parseIndexBody] at h
  | cons c rest ih =>
    intro ds r h
    simp only [parseIndexBody] at h
    by_cases hc : c = ']'
    · rw [if_pos hc] at h
      simp only [Option.some.injEq, Prod.mk.injEq] at h
      obtain ⟨h1, h2⟩ := h
      subst h2
      simp only [List.length_cons]
      omega
    · rw [if_neg hc] at h
      by_cases hd : c.isDigit = true
      · rw [if_pos hd] at h
        cases hrec : parseIndexBody rest with
        | none => simp [hrec] at h
        | some p =>
          obtain ⟨ds0, r0⟩ := p
          simp only [hrec, Option.some.injEq, Prod.mk.injEq] at h
          obtain ⟨h1, h2⟩ := h
          subst h2
          have := ih ds0 r0 hrec
          simp only [List.length_cons]
          omega
      · rw [if_neg hd] at h
        exact absurd h (by simp)

theorem parseIndexBody_append (s : List Char) (y : List Char) :
    ∀ ds r, parseIndexBody s = some (ds, r) →
      parseIndexBody (s ++ y) = some (ds, r ++ y) := by
  induction s with
  | nil =>
    intro ds r h
    simp [parseIndexBody] at h
  | cons c rest ih =>
    intro ds r h
    simp only [parseIndexBody] at h
    by_cases hc : c = ']'
    · rw [if_pos hc] at h
      simp only [Option.some.injEq, Prod.mk.injEq] at h
      obtain ⟨h1, h2⟩ := h
      subst h1
      subst h2
      simp [parseIndexBody, hc]
    · rw [if_neg hc] at h
      by_cases hd : c.isDigit = true
      · rw [if_pos hd] at h
        cases hrec : parseIndexBody rest with
        | none => simp [hrec] at h
        | some p =>
          obtain ⟨ds0, r0⟩ := p
          simp only [hrec, Option.some.injEq, Prod.mk.injEq] at h
          obtain ⟨h1, h2⟩ := h
          subst h1
          subst h2
          simp [parseIndexBody, hc, hd, ih ds0 r0 hrec]
      · rw [if_neg hd] at h
        exact absurd h (by simp)

theorem parseComp_length (s : List Char) (seg : PathSegment) (r : List Char)
    (h : parseComp s = some (seg, r)) : r.length < s.length := by
  cases s with
  | nil => simp [parseComp] at h
  | cons c xs =>
    simp only [parseComp] at h
    by_cases hc : c = '.'
    · rw [if_pos hc] at h
      simp only [parseDot] at h
      by_cases he : (xs.takeWhile keyChar).isEmpty = true
      · rw [if_pos he] at h
        exact absurd h (by simp)
      · rw [if_neg he] at h
        simp only [Option.some.injEq, Prod.mk.injEq] at h
        obtain ⟨h1, h2⟩ := h
        subst h2
        have := dropWhile_length_le keyChar xs
        simp only [List.length_cons]
        omega
    · rw [if_neg hc] at h
      by_cases hb : c = '['
      · rw [if_pos hb] at h
        cases xs with
        | nil => simp [parseBracket, parseIndex, parseIndexBody] at h
        | cons c2 xs2 =>
          simp only [parseBracket] at h
          by_cases hq : c2 = '"'
          · rw [if_pos hq] at h
            simp only [parseQuoted] at h
            cases hqb : parseQuotedBody xs2 with
            | none => simp [hqb] at h
            | some p =>
              obtain ⟨key, rq⟩ := p
              have hlen := parseQuotedBody_length xs2 key rq hqb
              cases rq with
              | nil => simp [hqb] at h
              | cons c3 r3 =>
                simp only [hqb] at h
                by_cases hc3 : c3 = ']'
                · rw [if_pos hc3] at h
                  simp only [Option.some.injEq, Prod.mk.injEq] at h
                  obtain ⟨h1, h2⟩ := h
                  subst h2
                  simp only [List.length_cons] at hlen ⊢
                  omega
                · rw [if_neg hc3] at h
                  exact absurd h (by simp)
          · rw [if_neg hq] at h
            simp only [parseIndex] at h
            cases hib : parseIndexBody (c2 :: xs2) with
            | none => simp [hib] at h
            | some p =>
              obtain ⟨ds, ri⟩ := p
              simp only [hib] at h
              cases hu : parseUsize ds with
              | none => simp [hu] at h
              | some i =>
                simp only [hu, Option.some.injEq, Prod.mk.injEq] at h
                obtain ⟨h1, h2⟩ := h
                subst h2
                have := parseIndexBody_length (c2 :: xs2) ds ri hib
                simp only [List.length_cons] at this ⊢
                omega
      · rw [if_neg hb] at h
        exact absurd h (by simp)

theorem takeWhile_dropWhile_append (P : Char → Bool) (xs y : List Char)
    (h : ∀ c, y.head? = some c → P c = false) :
    (xs ++ y).takeWhile P = xs.takeWhile P
  ∧ (xs ++ y).dropWhile P = xs.dropWhile P ++ y := by
  induction xs with
  | nil =>
    simp only [List.nil_append]
    cases y with
    | nil => simp
    | cons c rest =>
      have hc := h c rfl
      simp [List.takeWhile_cons, List.dropWhile_cons, hc]
  | cons x xs ih =>
    by_cases hx : P x = true
    · simp [List.takeWhile_cons, List.dropWhile_cons, hx, ih.1, ih.2]
    · simp [List.takeWhile_cons, List.dropWhile_cons, hx]

theorem parseComp_head (y : List Char) (seg : PathSegment) (r : List Char)
    (h : parseComp y = some (seg, r)) :
    y.head? = some '.' ∨ y.head? = some '[' := by
  cases y with
  | nil => simp [parseComp] at h
  | cons c rest =>
    by_cases hc : c = '.'
    · subst hc
      exact Or.inl rfl
    · by_cases hb : c = '['
      · subst hb
        exact Or.inr rfl
      · simp [parseComp, hc, hb] at h

theorem parseComp_ne_nil (seg : PathSegment) (r : List Char)
    (h : parseComp [] = some (seg, r)) : False := by
  simp [parseComp] at h

theorem parseComp_cons (c : Char) (rest : List Char) :
    parseComp (c :: rest) =
      if c = '.' then parseDot rest
      else if c = '[' then parseBracket rest
      else none := rfl

theorem parseBracket_cons (c : Char) (rest2 : List Char) :
    parseBracket (c :: rest2) =
      if c = '"' then parseQuoted rest2 else parseIndex (c :: rest2) := rfl

theorem parseComp_append (l y : List Char) (seg : PathSegment) (r : List Char)
    (hl : parseComp l = some (seg, r))
    (hy : y.head? = some '.' ∨ y.head? = some '[') :
    parseComp (l ++ y) = some (seg, r ++ y) := by
  have hyP : ∀ c, y.head? = some c → keyChar c = false := by
    intro c hc
    rcases hy with hd | hd <;> rw [hc, Option.some.injEq] at hd <;> subst hd <;> rfl
  cases l with
  | nil => simp [parseComp] at hl
  | cons c xs =>
    rw [parseComp_cons] at hl
    rw [List.cons_append, parseComp_cons]
    by_cases hc : c = '.'
    · subst hc
      simp only [Char.reduceEq, reduceIte] at hl ⊢
      obtain ⟨htake, hdrop⟩ := takeWhile_dropWhile_append keyChar xs y hyP
      simp only [parseDot, htake, hdrop] at hl ⊢
      by_cases he : (xs.takeWhile keyChar).isEmpty = true
      · rw [if_pos he] at hl
        exact absurd hl (by simp)
      · rw [if_neg he] at hl ⊢
        rw [Option.some.injEq, Prod.mk.injEq] at hl ⊢
        obtain ⟨h1, h2⟩ := hl
        exact ⟨h1, by rw [← h2]⟩
    · by_cases hb : c = '['
      · subst hb
        simp only [Char.reduceEq, reduceIte] at hl ⊢
        cases xs with
        | nil => exact Option.noConfusion hl
        | cons c2 xs2 =>
          rw [parseBracket_cons] at hl
          rw [List.cons_append, parseBracket_cons]
          by_cases hq : c2 = '"'
          · subst hq
            simp only [Char.reduceEq, reduceIte] at hl ⊢
            simp only [parseQuoted] at hl ⊢
            cases hqb : parseQuotedBody xs2 with
            | none => simp [hqb] at hl
            | some p =>
              obtain ⟨key, rq⟩ := p
              cases rq with
              | nil => simp [hqb] at hl
              | cons c3 r3 =>
                simp only [hqb] at hl
                have happ := parseQuotedBody_append xs2 y key (c3 :: r3) hqb
                rw [List.cons_append] at happ
                simp only [happ]
                by_cases hc3 : c3 = ']'
                · rw [if_pos hc3] at hl ⊢
                  rw [Option.some.injEq, Prod.mk.injEq] at hl ⊢
                  obtain ⟨h1, h2⟩ := hl
                  exact ⟨h1, by rw [← h2]⟩
                · rw [if_neg hc3] at hl
                  exact absurd hl (by simp)
          · rw [if_neg hq] at hl ⊢
            simp only [parseIndex] at hl ⊢
            cases hib : parseIndexBody (c2 :: xs2) with
            | none => simp [hib] at hl
            | some p =>
              obtain ⟨ds, ri⟩ := p
              simp only [hib] at hl
              have happ := parseIndexBody_append (c2 :: xs2) y ds ri hib
              rw [List.cons_append] at happ
              simp only [happ]
              cases hu : parseUsize ds with
              | none => simp [hu] at hl
              | some i =>
                simp only [hu] at hl ⊢
                rw [Option.some.injEq, Prod.mk.injEq] at hl ⊢
                obtain ⟨h1, h2⟩ := hl
                exact ⟨h1, by rw [← h2]⟩
      · rw [if_neg hc, if_neg hb] at hl
        exact absurd hl (by simp)

theorem parseSegsF_nil (f : Nat) : parseSegsF f [] = some [] := by
  cases f <;> rfl

theorem parseSegsF_single (y : List Char) (seg : PathSegment) (f : Nat)
    (hf : 1 ≤ f) (h : parseComp y = some (seg, [])) :
    parseSegsF f y = some [seg] := by
  cases y with
  | nil => exact absurd h (by simp [parseComp])
  | cons c rest =>
    cases f with
    | zero => omega
    | succ g =>
      simp only [parseSegsF, h, parseSegsF_nil]

theorem parseSegsF_append (f₁ : Nat) :
    ∀ (l y : List Char) (segs : List PathSegment) (seg : PathSegment) (f₂ : Nat),
    l.length ≤ f₁ → (l ++ y).length ≤ f₂ →
    parseSegsF f₁ l = some segs → parseComp y = some (seg, []) →
    parseSegsF f₂ (l ++ y) = some (segs ++ [seg]) := by
  induction f₁ using Nat.strong_induction_on with
  | _ f₁ ih =>
    intro l y segs seg f₂ hf₁ hf₂ hl hy
    cases l with
    | nil =>
      rw [parseSegsF_nil] at hl
      simp only [Option.some.injEq] at hl
      subst hl
      rw [List.nil_append, List.nil_append]
      have hyne : y ≠ [] := by
        intro hnil
        rw [hnil] at hy
        exact parseComp_ne_nil seg [] hy
      have hlen : 1 ≤ f₂ := by
        rw [List.nil_append] at hf₂
        have : 1 ≤ y.length := by
          cases y with
          | nil => exact absurd rfl hyne
          | cons a b => simp
        omega
      exact parseSegsF_single y seg f₂ hlen hy
    | cons c xs =>
      have hf1pos : 1 ≤ f₁ := by
        simp only [List.length_cons] at hf₁
        omega
      obtain ⟨a, rfl⟩ : ∃ a, f₁ = a + 1 := ⟨f₁ - 1, by omega⟩
      simp only [parseSegsF] at hl
      cases hc : parseComp (c :: xs) with
      | none =>
        rw [hc] at hl
        exact absurd hl (by simp)
      | some p =>
        obtain ⟨s₁, r₁⟩ := p
        simp only [hc] at hl
        cases hrest : parseSegsF a r₁ with
        | none =>
          rw [hrest] at hl
          exact absurd hl (by simp)
        | some segs' =>
          simp only [hrest, Option.some.injEq] at hl
          subst hl
          have hhead := parseComp_head y seg [] hy
          have happ := parseComp_append (c :: xs) y s₁ r₁ hc hhead
          have hlen := parseComp_length (c :: xs) s₁ r₁ hc
          have hf2pos : 1 ≤ f₂ := by
            simp only [List.cons_append, List.length_cons] at hf₂
            omega
          obtain ⟨b, rfl⟩ : ∃ b, f₂ = b + 1 := ⟨f₂ - 1, by omega⟩
          rw [List.cons_append] at happ ⊢
          simp only [parseSegsF, happ]
          have e3 : (c :: xs).length = xs.length + 1 := rfl
          rw [e3] at hlen hf₁
          have hb1 : r₁.length ≤ a := by omega
          have hb2 : (r₁ ++ y).length ≤ b := by
            have e1 : (c :: xs ++ y).length = xs.length + 1 + y.length := by
              simp only [List.length_cons, List.length_append]
            rw [e1] at hf₂
            rw [List.length_append]
            omega
          have hrec := ih a (by omega) r₁ y segs' seg b hb1 hb2 hrest hy
          simp only [hrec]
          rfl

theorem takeWhile_eq_self_of_all (P : Char → Bool) (l : List Char)
    (h : ∀ c ∈ l, P c = true) :
    l.takeWhile P = l ∧ l.dropWhile P = [] := by
  induction l with
  | nil => simp
  | cons c rest ih =>
    have hc := h c (List.mem_cons_self _ _)
    have ihr := ih fun d hd => h d (List.mem_cons_of_mem _ hd)
    simp [List.takeWhile_cons, List.dropWhile_cons, hc, ihr.1, ihr.2]

theorem keyChar_of_alnum (c : Char) (h : (c.isAlphanum || decide (c = '_')) = true) :
    keyChar c = true := by
  have h1 : c ≠ '.' := by
    rintro rfl
    exact absurd h (by decide)
  have h2 : c ≠ '[' := by
    rintro rfl
    exact absurd h (by decide)
  simp [keyChar, h1, h2]

theorem parseComp_dot_ident (key : List Char)
    (hv : is_valid_identifier key = true) :
    parseComp ('.' :: key) = some (PathSegment.Key (String.mk key), []) := by
  rw [is_valid_identifier] at hv
  simp only [Bool.and_eq_true] at hv
  obtain ⟨⟨hne, -⟩, hall⟩ := hv
  rw [List.all_eq_true] at hall
  have hkc : ∀ c ∈ key, keyChar c = true := fun c hc => keyChar_of_alnum c (hall c hc)
  obtain ⟨htake, hdrop⟩ := takeWhile_eq_self_of_all keyChar key hkc
  rw [parseComp_cons]
  simp only [Char.reduceEq, reduceIte]
  simp only [parseDot, htake, hdrop]
  rw [Bool.not_eq_true'] at hne
  rw [if_neg (by rw [hne]; exact Bool.false_ne_true)]

theorem replaceChar_append (t : Char) (repl : List Char) (a b : List Char) :
    replaceChar t repl (a ++ b) = replaceChar t repl a ++ replaceChar t repl b := by
  induction a with
  | nil => simp [replaceChar]
  | cons c rest ih => simp [replaceChar, ih]

theorem escape_key_cons (c : Char) (key : List Char) :
    escape_key (c :: key) = escape_key [c] ++ escape_key key := by
  rw [escape_key, escape_key, escape_key]
  rw [show (c :: key) = [c] ++ key from rfl]
  rw [replaceChar_append, replaceChar_append]

theorem parseQuotedBody_escape (key : List Char) (rest : List Char) :
    parseQuotedBody (escape_key key ++ '"' :: rest) = some (key, rest) := by
  induction key with
  | nil =>
    rw [show escape_key [] = [] from rfl, List.nil_append]
    rw [parseQuotedBody.eq_def]
    simp
  | cons c key ih =>
    rw [escape_key_cons, List.append_assoc]
    by_cases hc1 : c = '\\'
    · subst hc1
      rw [show escape_key ['\\'] = ['\\', '\\'] from rfl]
      rw [show (['\\', '\\'] : List Char) ++ (escape_key key ++ '"' :: rest)
          = '\\' :: '\\' :: (escape_key key ++ '"' :: rest) from rfl]
      rw [parseQuotedBody.eq_def]
      simp [ih]
    · by_cases hc2 : c = '"'
      · subst hc2
        rw [show escape_key ['"'] = ['\\', '"'] from rfl]
        rw [show (['\\', '"'] : List Char) ++ (escape_key key ++ '"' :: rest)
            = '\\' :: '"' :: (escape_key key ++ '"' :: rest) from rfl]
        rw [parseQuotedBody.eq_def]
        simp [ih]
      · have hesc : escape_key [c] = [c] := by
          rw [escape_key]
          simp [replaceChar, hc1, hc2]
        rw [hesc, List.singleton_append, parseQuotedBody.eq_def]
        simp [hc1, hc2, ih]

theorem parseComp_bracket_quoted (key : List Char) :
    parseComp ('[' :: '"' :: (escape_key key ++ ['"', ']']))
      = some (PathSegment.Key (String.mk key), []) := by
  rw [parseComp_cons]
  simp only [Char.reduceEq, reduceIte]
  rw [parseBracket_cons]
  simp only [Char.reduceEq, reduceIte]
  simp only [parseQuoted]
  have hq : parseQuotedBody (escape_key key ++ ['"', ']']) = some (key, [']']) :=
    parseQuotedBody_escape key [']']
  simp only [hq]
  simp

theorem foldl_digits_eq (ds : List Char) : ∀ acc : Nat,
    ds.foldl (fun acc c => acc * 10 + (c.toNat - '0'.toNat)) acc
      = acc * 10 ^ ds.length
        + Nat.ofDigits 10 (ds.reverse.map (fun c => c.toNat - '0'.toNat)) := by
  induction ds with
  | nil =>
    intro acc
    simp [Nat.ofDigits]
  | cons c ds ih =>
    intro acc
    simp only [List.foldl_cons, List.length_cons, List.reverse_cons,
      List.map_append, List.map_cons, List.map_nil]
    rw [ih, Nat.ofDigits_append]
    simp only [List.length_map, List.length_reverse, Nat.ofDigits_singleton]
    ring

theorem digitChar_roundtrip (d : Nat) (h : d < 10) :
    (Char.ofNat (d + '0'.toNat)).toNat - '0'.toNat = d := by
  interval_cases d <;> rfl

theorem digitsToNat_natToDecimal (n : Nat) : digitsToNat (natToDecimal n) = n := by
  by_cases h0 : n = 0
  · subst h0
    rfl
  · rw [natToDecimal, if_neg h0, digitsToNat, foldl_digits_eq]
    simp only [Nat.zero_mul, Nat.zero_add, List.reverse_reverse, List.map_map]
    have hmap : List.map ((fun c => c.toNat - '0'.toNat)
          ∘ (fun d => Char.ofNat (d + '0'.toNat))) (Nat.digits 10 n)
        = List.map id (Nat.digits 10 n) := by
      apply List.map_congr_left
      intro d hd
      have hlt : d < 10 := Nat.digits_lt_base (by norm_num) hd
      simp only [Function.comp_apply, id_eq]
      exact digitChar_roundtrip d hlt
    rw [hmap, List.map_id]
    exact Nat.ofDigits_digits 10 n

theorem natToDecimal_digits (n : Nat) : ∀ c ∈ natToDecimal n, c.isDigit = true := by
  intro c hc
  rw [natToDecimal] at hc
  by_cases h0 : n = 0
  · rw [if_pos h0, List.mem_singleton] at hc
    subst hc
    rfl
  · rw [if_neg h0, List.mem_reverse, List.mem_map] at hc
    obtain ⟨d, hd, rfl⟩ := hc
    have hlt : d < 10 := Nat.digits_lt_base (by norm_num) hd
    interval_cases d <;> rfl

theorem natToDecimal_ne_nil (n : Nat) : natToDecimal n ≠ [] := by
  rw [natToDecimal]
  by_cases h0 : n = 0
  · rw [if_pos h0]
    simp
  · rw [if_neg h0]
    simp only [ne_eq, List.reverse_eq_nil_iff, List.map_eq_nil_iff]
    exact Nat.digits_ne_nil_iff_ne_zero.mpr h0

theorem parseComp_index (i : Nat) (hi : i ≤ USIZE_MAX) :
    parseComp ('[' :: (natToDecimal i ++ [']']))
      = some (PathSegment.Index i, []) := by
  obtain ⟨d, ds', hds⟩ := List.exists_cons_of_ne_nil (natToDecimal_ne_nil i)
  have hd : d.isDigit = true := natToDecimal_digits i d (by
    rw [hds]
    exact List.mem_cons_self _ _)
  have hne := isDigit_ne_syntax d hd
  have hbody : parseIndexBody (natToDecimal i ++ ']' :: ([] : List Char))
      = some (natToDecimal i, []) :=
    parseIndexBody_digits (natToDecimal i) [] (natToDecimal_digits i)
  rw [parseComp_cons]
  simp only [Char.reduceEq, reduceIte]
  rw [hds, List.cons_append, parseBracket_cons, if_neg hne.2.1,
    ← List.cons_append, ← hds]
  simp only [parseIndex, hbody]
  have hne2 : (natToDecimal i).isEmpty = false := by
    rw [hds]
    rfl
  simp only [parseUsize, hne2, Bool.false_eq_true, if_false,
    digitsToNat_natToDecimal, if_pos hi]

theorem parseComp_format (key : String) :
    parseComp (format_path_component key).data
      = some (PathSegment.Key key, []) := by
  rw [format_path_component]
  by_cases hv : is_valid_identifier key.data = true
  · rw [if_pos hv]
    exact parseComp_dot_ident key.data hv
  · rw [if_neg hv]
    exact parseComp_bracket_quoted key.data

theorem parse_json_path_eq (base : String) (segs : List PathSegment)
    (h : parse_json_path base = some segs) :
    ∃ l, base.data = '$' :: l ∧ parseSegsF l.length l = some segs := by
  rw [parse_json_path] at h
  cases hb : base.data with
  | nil =>
    rw [hb] at h
    exact absurd h (by simp)
  | cons c l =>
    rw [hb] at h
    have h2 : (if c = '$' then parseSegsF l.length l else none) = some segs := h
    by_cases hc : c = '$'
    · rw [if_pos hc] at h2
      subst hc
      exact ⟨l, rfl, h2⟩
    · rw [if_neg hc] at h2
      exact absurd h2 (by simp)

theorem parse_json_path_append (base : String) (segs : List PathSegment)
    (comp : List Char) (seg : PathSegment)
    (h : parse_json_path base = some segs)
    (hc : parseComp comp = some (seg, [])) :
    parse_json_path (String.mk (base.data ++ comp)) = some (segs ++ [seg]) := by
  obtain ⟨l, hdata, hsegs⟩ := parse_json_path_eq base segs h
  rw [parse_json_path]
  rw [show (String.mk (base.data ++ comp)).data = base.data ++ comp from rfl]
  rw [hdata, List.cons_append]
  show (if '$' = '$' then parseSegsF (l ++ comp).length (l ++ comp) else none)
      = some (segs ++ [seg])
  rw [if_pos rfl]
  exact parseSegsF_append l.length l comp segs seg (l ++ comp).length
    (le_refl _) (le_refl _) hsegs hc

/-- C1: format/parse round trip.  Appending a formatted key component or a
formatted array index to any parseable base path parses back to the base's
segments plus the corresponding `Key`/`Index` segment; in particular
`parse(build_object_path("$", key))` is `[Key key]` for every key (the
identifier form and the bracket-quoted escaped form both re-parse), and
`parse(build_array_path("$", i))` is `[Index i]` for every `i` in the
usize range. -/
theorem c1_round_trip :
    (∀ (base key : String) (segs : List PathSegment),
        parse_json_path base = some segs →
        parse_json_path (build_object_path base key)
          = some (segs ++ [PathSegment.Key key]))
  ∧ (∀ (base : String) (i : Nat) (segs : List PathSegment),
        i ≤ USIZE_MAX →
        parse_json_path base = some segs →
        parse_json_path (build_array_path base i)
          = some (segs ++ [PathSegment.Index i]))
  ∧ (∀ key : String, parse_json_path (build_object_path "$" key)
        = some [PathSegment.Key key])
  ∧ (∀ key : String,
        parse_json_path (String.mk ('$' :: '[' :: '"' ::
            (escape_key key.data ++ ['"', ']'])))
          = some [PathSegment.Key key])
  ∧ (∀ i : Nat, i ≤ USIZE_MAX →
        parse_json_path (build_array_path "$" i) = some [PathSegment.Index i]) := by
  have hobj : ∀ (base key : String) (segs : List PathSegment),
      parse_json_path base = some segs →
      parse_json_path (build_object_path base key)
        = some (segs ++ [PathSegment.Key key]) := by
    intro base key segs h
    rw [build_object_path]
    exact parse_json_path_append base segs (format_path_component key).data
      (PathSegment.Key key) h (parseComp_format key)
  have harr : ∀ (base : String) (i : Nat) (segs : List PathSegment),
      i ≤ USIZE_MAX →
      parse_json_path base = some segs →
      parse_json_path (build_array_path base i)
        = some (segs ++ [PathSegment.Index i]) := by
    intro base i segs hi h
    rw [build_array_path]
    exact parse_json_path_append base segs ('[' :: (natToDecimal i ++ [']']))
      (PathSegment.Index i) h (parseComp_index i hi)
  refine ⟨hobj, harr, ?_, ?_, ?_⟩
  · intro key
    have h := hobj "$" key [] rfl
    simpa using h
  · intro key
    have h := parse_json_path_append "$" [] ('[' :: '"' ::
        (escape_key key.data ++ ['"', ']'])) (PathSegment.Key key) rfl
      (by
        have := parseComp_bracket_quoted key.data
        simpa using this)
    simpa using h
  · intro i hi
    have h := harr "$" i [] hi rfl
    simpa using h

/-- Witness for C1 at concrete inputs: appending to a non-root base, and
the three particular forms. -/
theorem c1_witness :
    parse_json_path (build_object_path "$.a" "b c")
      = some [PathSegment.Key "a", PathSegment.Key "b c"]
  ∧ parse_json_path (build_array_path "$[0]" 7)
      = some [PathSegment.Index 0, PathSegment.Index 7]
  ∧ parse_json_path (build_object_path "$" "name") = some [PathSegment.Key "name"]
  ∧ parse_json_path (build_array_path "$" 3) = some [PathSegment.Index 3] := by
  refine ⟨?_, ?_, ?_, ?_⟩
  · have h := c1_round_trip.1 "$.a" "b c" [PathSegment.Key "a"] rfl
    simpa using h
  · have h := c1_round_trip.2.1 "$[0]" 7 [PathSegment.Index 0] (by decide) rfl
    simpa using h
  · exact c1_round_trip.2.2.1 "name"
  · exact c1_round_trip.2.2.2.2 3 (by decide)

theorem specQuotedTail_eq (s : List Char) :
    specQuotedTail s = (parseQuotedBody s).map (fun p => p.2) := by
  induction s using parseQuotedBody.induct with
  | case1 => rfl
  | case2 => rfl
  | case3 e rest2 hnone ih =>
    rw [specQuotedTail.eq_def, parseQuotedBody.eq_def]
    simp [hnone, ih]
  | case4 e rest2 k0 r0 hsome ih =>
    rw [specQuotedTail.eq_def, parseQuotedBody.eq_def]
    simp [hsome, ih]
  | case5 rest2 hne =>
    rw [specQuotedTail.eq_def, parseQuotedBody.eq_def]
    simp
  | case6 e rest2 hne1 hne2 hnone ih =>
    rw [specQuotedTail.eq_def, parseQuotedBody.eq_def]
    simp [hne1, hne2, hnone, ih]
  | case7 e rest2 hne1 hne2 k0 r0 hsome ih =>
    rw [specQuotedTail.eq_def, parseQuotedBody.eq_def]
    simp [hne1, hne2, hsome, ih]

theorem parseIndexBody_cons (c : Char) (rest : List Char) :
    parseIndexBody (c :: rest) =
      if c = ']' then some ([], rest)
      else if c.isDigit then
        match parseIndexBody rest with
        | none => none
        | some (ds, r) => some (c :: ds, r)
      else none := rfl

theorem parseIndexBody_eq (s : List Char) :
    parseIndexBody s
      = (match s.dropWhile Char.isDigit with
        | [] => none
        | c :: r => if c = ']' then some (s.takeWhile Char.isDigit, r) else none) := by
  induction s with
  | nil => rfl
  | cons c rest ih =>
    rw [parseIndexBody_cons]
    by_cases hc : c = ']'
    · subst hc
      have hnd : (']' : Char).isDigit = false := rfl
      simp [List.dropWhile_cons, List.takeWhile_cons, hnd]
    · by_cases hd : c.isDigit = true
      · have hdw : (c :: rest).dropWhile Char.isDigit
            = rest.dropWhile Char.isDigit := by
          simp [List.dropWhile_cons, hd]
        have htw : (c :: rest).takeWhile Char.isDigit
            = c :: rest.takeWhile Char.isDigit := by
          simp [List.takeWhile_cons, hd]
        rw [if_neg hc, if_pos hd, ih, hdw, htw]
        cases rest.dropWhile Char.isDigit with
        | nil => rfl
        | cons c2 r2 =>
          by_cases hx : c2 = ']' <;> simp [hx]
      · have hdw : (c :: rest).dropWhile Char.isDigit = c :: rest := by
          simp [List.dropWhile_cons, hd]
        rw [if_neg hc, if_neg hd, hdw]
        simp [hc]

theorem specComponentB_cons (c : Char) (rest : List Char) :
    specComponentB (c :: rest) =
      (if c = '.' then
        if (rest.takeWhile keyChar).isEmpty then none
        else some (rest.dropWhile keyChar)
      else if c = '[' then
        match rest with
        | [] => none
        | c2 :: rest2 =>
          if c2 = '"' then
            match specQuotedTail rest2 with
            | none => none
            | some r =>
              match r with
              | [] => none
              | c3 :: r2 => if c3 = ']' then some r2 else none
          else
            if ((c2 :: rest2).takeWhile Char.isDigit).isEmpty then none
            else if USIZE_MAX < digitsToNat ((c2 :: rest2).takeWhile Char.isDigit) then
              none
            else
              match (c2 :: rest2).dropWhile Char.isDigit with
              | [] => none
              | c3 :: r2 => if c3 = ']' then some r2 else none
      else none) := rfl

theorem specComponentB_eq_parseComp (s : List Char) :
    specComponentB s = (parseComp s).map (fun p => p.2) := by
  cases s with
  | nil => rfl
  | cons c rest =>
    rw [specComponentB_cons, parseComp_cons]
    by_cases hc : c = '.'
    · rw [if_pos hc, if_pos hc]
      simp only [parseDot]
      by_cases he : (rest.takeWhile keyChar).isEmpty = true
      · simp [he]
      · simp [he]
    · rw [if_neg hc, if_neg hc]
      by_cases hb : c = '['
      · rw [if_pos hb, if_pos hb]
        cases rest with
        | nil => rfl
        | cons c2 rest2 =>
          rw [parseBracket_cons]
          dsimp only
          by_cases hq : c2 = '"'
          · rw [if_pos hq, if_pos hq]
            simp only [parseQuoted, specQuotedTail_eq]
            cases hqb : parseQuotedBody rest2 with
            | none => simp
            | some p =>
              obtain ⟨key, rq⟩ := p
              cases rq with
              | nil => simp
              | cons c3 r2 =>
                by_cases hx : c3 = ']' <;> simp [hx]
          · rw [if_neg hq, if_neg hq]
            simp only [parseIndex, parseIndexBody_eq]
            cases hdw : (c2 :: rest2).dropWhile Char.isDigit with
            | nil =>
              by_cases he : ((c2 :: rest2).takeWhile Char.isDigit).isEmpty = true
              · simp [he]
              · by_cases hbd : USIZE_MAX
                    < digitsToNat ((c2 :: rest2).takeWhile Char.isDigit)
                · simp [he, hbd]
                · simp [he, hbd]
            | cons c3 r2 =>
              by_cases hx : c3 = ']'
              · subst hx
                by_cases he : ((c2 :: rest2).takeWhile Char.isDigit).isEmpty = true
                · simp [he, parseUsize]
                · by_cases hbd : USIZE_MAX
                      < digitsToNat ((c2 :: rest2).takeWhile Char.isDigit)
                  · have hnle : ¬ digitsToNat ((c2 :: rest2).takeWhile Char.isDigit)
                        ≤ USIZE_MAX := by omega
                    simp [he, hbd, parseUsize, hnle]
                  · have hle : digitsToNat ((c2 :: rest2).takeWhile Char.isDigit)
                        ≤ USIZE_MAX := by omega
                    simp [he, hbd, parseUsize, hle]
              · by_cases he : ((c2 :: rest2).takeWhile Char.isDigit).isEmpty = true
                · simp [he, hx, parseUsize]
                · by_cases hbd : USIZE_MAX
                      < digitsToNat ((c2 :: rest2).takeWhile Char.isDigit)
                  · have hnle : ¬ digitsToNat ((c2 :: rest2).takeWhile Char.isDigit)
                        ≤ USIZE_MAX := by omega
                    simp [he, hbd, hx, parseUsize, hnle]
                  · have hle : digitsToNat ((c2 :: rest2).takeWhile Char.isDigit)
                        ≤ USIZE_MAX := by omega
                    simp [he, hbd, hx, parseUsize, hle]
      · rw [if_neg hb, if_neg hb]
        rfl

theorem specPathTailB_eq (fuel : Nat) : ∀ s : List Char,
    specPathTailB fuel s = (parseSegsF fuel s).isSome := by
  induction fuel with
  | zero =>
    intro s
    cases s with
    | nil => rfl
    | cons c rest => rfl
  | succ f ih =>
    intro s
    cases s with
    | nil => rfl
    | cons c rest =>
      have hs := specComponentB_eq_parseComp (c :: rest)
      show (match specComponentB (c :: rest) with
          | none => false
          | some r => specPathTailB f r)
        = (match parseComp (c :: rest) with
          | none => none
          | some (seg, r) =>
            match parseSegsF f r with
            | none => none
            | some segs => some (seg :: segs)).isSome
      cases hp : parseComp (c :: rest) with
      | none =>
        rw [hp] at hs
        simp [hs]
      | some p =>
        obtain ⟨seg, r⟩ := p
        rw [hp] at hs
        simp only [Option.map_some'] at hs
        simp only [hs]
        rw [ih r]
        cases parseSegsF f r <;> rfl

theorem specIsPathB_eq (s : String) :
    specIsPathB s = (parse_json_path s).isSome := by
  rw [specIsPathB, parse_json_path]
  cases s.data with
  | nil => rfl
  | cons c rest =>
    show (decide (c = '$') && specPathTailB rest.length rest)
        = (if c = '$' then parseSegsF rest.length rest else none).isSome
    by_cases hc : c = '$'
    · rw [if_pos hc]
      simp [hc, specPathTailB_eq]
    · rw [if_neg hc]
      simp [hc]

/-- C6 counterexample: the claim reads the §4.1 grammar literally — any
input that is `$` followed by grammar components parses.  The input
`$[18446744073709551616]` (2^64, one past `usize::MAX`) matches the
grammar's bracket-digit component, yet `parse_json_path` returns `None`
because `str::parse::<usize>` overflows. -/
theorem c6_counterexample :
    specIsPath "$[18446744073709551616]" = true
  ∧ parse_json_path "$[18446744073709551616]" = none := by
  constructor
  · rfl
  · rfl

/-- C6 (amended): `parse_json_path` succeeds exactly on the inputs of the
§4.1 grammar whose bracket-digit components denote values within the
usize range, and fails — always with `none`, the embedding is a total
function into `Option` — on every other input; the root path `$` parses
to the empty segment sequence. -/
theorem c6_grammar_amended :
    (∀ s : String, (parse_json_path s).isSome = specIsPathB s)
  ∧ parse_json_path "$" = some [] := by
  constructor
  · intro s
    exact (specIsPathB_eq s).symm
  · rfl

end Slopjson
